import Mathlib

/-!
Verification of the auto-git-commit-message repository.

The Python sources `git_diff_llm.py` and `src/auto_commit_message/server_utils.py`
are shallowly embedded below.  Python strings are modelled as Lean `String`s;
all string primitives used by the code (`str.splitlines`, `str.split(" ")`,
`str.startswith`, `str.strip`, slicing, `"\n".join`) are reimplemented
structurally over the character list so that every definition is executable
and kernel-reducible.  `str.splitlines` is modelled for newline-separated
text (the separator `"\n"`; the code only ever feeds it git-diff text).
Python's insertion-ordered `dict` with overwriting assignment is modelled by
an ordered association list (`pyDictInsert`).  Real time in the server
start-up loop is modelled by an idealized clock: the i-th probe of the
polling loop happens exactly 0.5*i seconds (5*i deciseconds) after the
spawn and probes themselves take no time.
-/

/-- Python whitespace test (`str.strip`, regex `\s`) restricted to the ASCII
whitespace characters. -/
def pyIsSpace (c : Char) : Bool :=
  c = ' ' || c = '\t' || c = '\n' || c = '\r' || c = '\x0b' || c = '\x0c'

/-- Split a character list at every newline character; Python
`str.splitlines` semantics: a trailing newline does not produce a final
empty line, the empty text has no lines. -/
def linesOf : List Char → List (List Char)
  | [] => []
  | c :: rest =>
    if c = '\n' then [] :: linesOf rest
    else
      match linesOf rest with
      | [] => [[c]]
      | l :: ls => (c :: l) :: ls

/-- Model of Python `str.splitlines()` for newline-separated text. -/
def pySplitlines (s : String) : List String := (linesOf s.data).map String.mk

/-- Split a character list on every occurrence of a separator character,
keeping empty pieces, Python `str.split(sep)` semantics. -/
def splitOnCharList (sep : Char) : List Char → List (List Char)
  | [] => [[]]
  | c :: rest =>
    if c = sep then [] :: splitOnCharList sep rest
    else
      match splitOnCharList sep rest with
      | [] => [[c]]
      | l :: ls => (c :: l) :: ls

/-- Model of Python `line.split(" ")` (single-space separator, empty pieces
kept). -/
def pySplitSpace (s : String) : List String := (splitOnCharList ' ' s.data).map String.mk

/-- Model of Python `s.startswith(pfx)`. -/
def pyStartsWith (s pfx : String) : Bool := List.isPrefixOf pfx.data s.data

/-- Model of Python `"\n".join(ls)` at the character level. -/
def joinNLList : List (List Char) → List Char
  | [] => []
  | [l] => l
  | l :: ls => l ++ '\n' :: joinNLList ls

/-- Model of Python `"\n".join(ls)`. -/
def joinNL (ls : List String) : String := String.mk (joinNLList (ls.map String.data))

/-- Model of Python `s.rstrip()` (ASCII whitespace). -/
def pyRstrip (s : String) : String :=
  String.mk ((List.dropWhile pyIsSpace s.data.reverse).reverse)

/-- Model of Python `s.strip()` (ASCII whitespace). -/
def pyStrip (s : String) : String :=
  String.mk ((List.dropWhile pyIsSpace (List.dropWhile pyIsSpace s.data).reverse).reverse)

/-- The test `line.startswith("diff --git")` of `split_diff_by_file`. -/
def isHeader (l : String) : Bool := pyStartsWith l "diff --git"

/-- Filename extraction of `split_diff_by_file`: `parts = line.split(" ")`;
if `len(parts) >= 3` the new current file is `parts[2][2:]` (the code takes
the token at index 2 and removes its first two characters), otherwise no
filename is extracted. -/
def extractName (l : String) : Option String :=
  let parts := pySplitSpace l
  if 3 ≤ parts.length then some (String.mk ((parts.getD 2 "").data.drop 2)) else none

/-- Python `dict` assignment `d[k] = v` on an insertion-ordered association
list: an existing key keeps its position and gets the new value, a new key
is appended at the end. -/
def pyDictInsert (d : List (String × String)) (k v : String) : List (String × String) :=
  if d.any fun p => decide (p.1 = k) then d.map fun p => if p.1 = k then (k, v) else p
  else d ++ [(k, v)]

/-- The guarded save `if current_file and lines: file_diffs[current_file] =
"\n".join(lines)` of `split_diff_by_file` (Python truthiness: `current_file`
must be a nonempty string and `lines` a nonempty list). -/
def saveSeg (d : List (String × String)) (cur : Option String) (acc : List String) :
    List (String × String) :=
  match cur with
  | some k => if k ≠ "" ∧ acc ≠ [] then pyDictInsert d k (joinNL acc) else d
  | none => d

/-- The loop of `split_diff_by_file` over the lines of the diff, carrying
`file_diffs`, `current_file` and `lines`; the base case is the final
`if current_file and lines` save after the loop. -/
def splitGo : List (String × String) → Option String → List String → List String →
    List (String × String)
  | d, cur, acc, [] => saveSeg d cur acc
  | d, cur, acc, l :: rest =>
    if isHeader l then
      splitGo (saveSeg d cur acc)
        (match extractName l with | some k => some k | none => cur) [l] rest
    else splitGo d cur (acc ++ [l]) rest

/-- `split_diff_by_file` on an already-split list of lines. -/
def split_diff_by_file_lines (ls : List String) : List (String × String) :=
  splitGo [] none [] ls

/-- `split_diff_by_file(diff_text)` from `git_diff_llm.py`. -/
def split_diff_by_file (diff_text : String) : List (String × String) :=
  split_diff_by_file_lines (pySplitlines diff_text)

/-- The default `distracting_files` list of `preprocess_diff`. -/
def defaultDistracting : List String := ["pyproject.toml", "uv.lock"]

/-- The filtering loop of `preprocess_diff`: drops entries whose key is in
`distracting_files`, setting `append_note` when one is seen. -/
def filterPairs (dfs : List String) (fd : List (String × String)) :
    List (String × String) × Bool :=
  fd.foldl (fun ab p => if p.1 ∈ dfs then (ab.1, true) else (ab.1 ++ [p], ab.2)) ([], false)

/-- `preprocess_diff(diff_text, distracting_files)` from `git_diff_llm.py`;
`none` models the Python default argument `None`. -/
def preprocess_diff (diff_text : String) (distracting_files : Option (List String)) :
    String × Bool :=
  let dfs := match distracting_files with
    | none => defaultDistracting
    | some l => l
  let fp := filterPairs dfs (split_diff_by_file diff_text)
  (joinNL (fp.1.map Prod.snd), fp.2)

/-- Case-insensitive literal matcher: on success returns the rest of the
input after the literal. -/
def matchCaseless : List Char → List Char → Option (List Char)
  | [], s => some s
  | _ :: _, [] => none
  | p :: ps, c :: cs => if p.toLower = c.toLower then matchCaseless ps cs else none

/-- The characters of the boilerplate literal in the regex of
`generate_commit_message`. -/
def commitTagChars : List Char := "**Commit Message:**".data

/-- Model of `re.sub(r'^\s*\*\*Commit Message:\*\*\s*', '', response,
flags=re.IGNORECASE)`: greedily drop leading whitespace, match the literal
case-insensitively, drop the following whitespace; if the literal does not
match, the string is unchanged (the leading `\s*` alone never matches
because the pattern requires the literal). -/
def stripCommitTag (s : String) : String :=
  match matchCaseless commitTagChars (List.dropWhile pyIsSpace s.data) with
  | some r => String.mk (List.dropWhile pyIsSpace r)
  | none => s

/-- Python truthiness of the value returned by `OllamaServer.get_pid`:
either the stripped `pgrep` output (truthy iff nonempty) or `False`
(modelled by `none`). -/
def pyTruthyPid : Option String → Bool
  | none => false
  | some s => s ≠ ""

/-- `generate_commit_message(server, llm, diff_text, model_name)` from
`git_diff_llm.py`.  `pid` is the snapshot `server.get_pid()` taken before
any generation work; `llm` models `llm.generate` on the filtered diff, with
`Except` capturing a raised inference error.  The second component records
whether the `finally` block calls `server.stop()` (the code runs it under
`if pid:`); it is computed identically on the success and the error path,
modelling the `finally` semantics. -/
def generate_commit_message (pid : Option String) (llm : String → Except String String)
    (diff_text : String) : Except String String × Bool :=
  let fr := preprocess_diff diff_text none
  let result := match llm fr.1 with
    | Except.ok r =>
      Except.ok (stripCommitTag (if fr.2 then r ++ " and updated documentation accordingly" else r))
    | Except.error e => Except.error e
  (result, pyTruthyPid pid)

/-- Outcome of `OllamaServer.start`: the early return when the server is
already running, a successful start after `polls` probes of the waiting
loop, or the `RuntimeError("Failed to start Ollama server in time.")`. -/
inductive StartResult where
  | alreadyRunning : StartResult
  | running (polls : Nat) : StartResult
  | timeoutRaised : StartResult
deriving DecidableEq

/-- Idealized clock of the start-up loop, in deciseconds: the i-th probe of
the `while not self.is_running()` loop happens `0.5 * i` seconds after the
spawn (`time.sleep(0.5)` between probes, probes taking no time). -/
def elapsedDeci (i : Nat) : Nat := 5 * i

/-- The waiting loop of `OllamaServer.start`: probe; if the server answers,
the loop exits; otherwise raise the timeout error as soon as the elapsed
time strictly exceeds the 5-second deadline (50 deciseconds), else sleep
0.5 s and repeat.  `fuel` is a structural bound on the recursion; it is
passed strictly larger than the 12 reachable iterations, so the base case
is never hit. -/
def startPollAux (probe : Nat → Bool) : Nat → Nat → StartResult
  | _, 0 => StartResult.timeoutRaised
  | i, Nat.succ fuel =>
    if probe i then StartResult.running i
    else if elapsedDeci i > 50 then StartResult.timeoutRaised
    else startPollAux probe (i + 1) fuel

/-- `OllamaServer.start` control flow: `pre` is the entry probe
`self.is_running()`; if it is false the server is spawned and the waiting
loop runs with the probe stream `probe`. -/
def ollamaStart (pre : Bool) (probe : Nat → Bool) : StartResult :=
  if pre then StartResult.alreadyRunning else startPollAux probe 0 13

/-- State of an `OllamaServer` instance: `proc` is `self.proc`, the handle
of the process this instance spawned (`None` initially). -/
structure ServerState where
  proc : Option Nat
deriving DecidableEq

namespace OllamaServer

/-- `OllamaServer.start(self)`: early return leaves the state unchanged;
otherwise `subprocess.Popen` records the spawned process in `self.proc`
before the waiting loop runs, and the method never terminates the process
(its body contains no `terminate` call), in particular not when the
waiting loop raises the timeout error. -/
def start (s : ServerState) (pre : Bool) (probe : Nat → Bool) (newPid : Nat) :
    ServerState × StartResult :=
  if pre then (s, StartResult.alreadyRunning)
  else ({ proc := some newPid }, startPollAux probe 0 13)

/-- `OllamaServer.stop(self)`: if `self.proc` is set, terminate exactly that
process and clear the handle; otherwise do nothing.  The second component
is the terminated process, if any. -/
def stop (s : ServerState) : ServerState × Option Nat :=
  match s.proc with
  | some p => ({ proc := none }, some p)
  | none => (s, none)

end OllamaServer

/-- Observable steps of the `__main__` block of `git_diff_llm.py`, in
program order. -/
inductive MainEv where
  | serverStart : MainEv
  | raiseStartTimeout : MainEv
  | readDiff : MainEv
  | printNoDiff : MainEv
  | exitCode (n : Nat) : MainEv
  | inferCall : MainEv
  | printMsg : MainEv
  | clipboard : MainEv
  | stopServer : MainEv
deriving DecidableEq

/-- Trace of the `__main__` block: `server.start()` runs first (uncaught
timeout error aborts the program); only then is the diff read; an
empty/whitespace-only diff prints `"No diff provided!"` and exits with
code 1; otherwise the generation request (with its inference call) runs,
the message is printed and copied, and `server.stop()` is called. -/
def main_trace (pre : Bool) (probe : Nat → Bool) (diff_text : String) : List MainEv :=
  match ollamaStart pre probe with
  | StartResult.timeoutRaised => [MainEv.serverStart, MainEv.raiseStartTimeout]
  | _ =>
    [MainEv.serverStart, MainEv.readDiff] ++
      (if pyStrip diff_text = "" then [MainEv.printNoDiff, MainEv.exitCode 1]
       else [MainEv.inferCall, MainEv.printMsg, MainEv.clipboard, MainEv.stopServer])

/-! ## Structural decomposition of the splitting loop

`segmentize` decomposes a line list into the lines before the first
header and the list of (header, following content lines) segments;
`buildDictAux` re-expresses the loop of `split_diff_by_file` on that
decomposition.  The bridge lemma `splitGo_eq_buildDictAux` connects the
two; all further reasoning happens on the segment view. -/

/-- Decompose a line list into (lines before the first header line,
segments); a segment is a header line together with the non-header lines
following it up to the next header line. -/
def segmentize : List String → List String × List (String × List String)
  | [] => ([], [])
  | l :: rest =>
    if isHeader l then ([], (l, (segmentize rest).1) :: (segmentize rest).2)
    else (l :: (segmentize rest).1, (segmentize rest).2)

/-- The lines of a segment: its header followed by its content lines. -/
def segLines (p : String × List String) : List String := p.1 :: p.2

/-- The dictionary entry a segment contributes: its extracted filename and
its joined lines. -/
def entryOf (p : String × List String) : String × String :=
  ((extractName p.1).getD "", joinNL (p.1 :: p.2))

/-- `split_diff_by_file`'s loop on the segment decomposition: each segment
is saved (under the current filename carried across headers that extract no
name) when the next segment's header, or the end of input, is reached. -/
def buildDictAux : Option String → List String → List (String × String) →
    List (String × List String) → List (String × String)
  | cur, acc, d, [] => saveSeg d cur acc
  | cur, acc, d, (h, c) :: rest =>
    buildDictAux (match extractName h with | some k => some k | none => cur) (h :: c)
      (saveSeg d cur acc) rest

theorem splitGo_eq_buildDictAux (ls : List String) :
    ∀ (d : List (String × String)) (cur : Option String) (acc : List String),
    splitGo d cur acc ls = buildDictAux cur (acc ++ (segmentize ls).1) d (segmentize ls).2 := by
  induction ls with
  | nil => intro d cur acc; simp [splitGo, segmentize, buildDictAux]
  | cons l rest ih =>
    intro d cur acc
    cases hh : isHeader l with
    | true => simp [splitGo, hh, segmentize, ih, buildDictAux]
    | false => simp [splitGo, hh, segmentize, ih]

theorem split_lines_eq_buildDictAux (ls : List String) :
    split_diff_by_file_lines ls =
      buildDictAux none (segmentize ls).1 [] (segmentize ls).2 := by
  have h := splitGo_eq_buildDictAux ls [] none []
  simpa [split_diff_by_file_lines] using h

theorem buildDictAux_none_acc (segs : List (String × List String)) (acc acc' : List String)
    (d : List (String × String)) :
    buildDictAux none acc d segs = buildDictAux none acc' d segs := by
  cases segs with
  | nil => simp [buildDictAux, saveSeg]
  | cons p rest => cases p with
    | mk h c => simp [buildDictAux, saveSeg]

theorem segmentize_append_content (pre : List String)
    (hpre : ∀ l ∈ pre, isHeader l = false) (ls : List String) :
    segmentize (pre ++ ls) = (pre ++ (segmentize ls).1, (segmentize ls).2) := by
  induction pre with
  | nil => simp
  | cons a t ih =>
    have ha : isHeader a = false := hpre a (by simp)
    have ht : ∀ l ∈ t, isHeader l = false := fun l hl => hpre l (by simp [hl])
    simp [segmentize, ha, ih ht]

theorem extractName_eq_none_of_short (m : String) (hlen : (pySplitSpace m).length < 3) :
    extractName m = none := by
  have h : ¬ 3 ≤ (pySplitSpace m).length := by omega
  simp [extractName, h]

/-- C3: if the first line of the diff text that starts with `diff --git`
splits on single spaces into fewer than 3 tokens, `split_diff_by_file`
extracts no filename from it and produces exactly the mapping it would
produce were that line an ordinary content line (equivalently, the mapping
computed from the remaining lines alone): the malformed header neither
crashes the loop (all functions here are total) nor opens a new segment. -/
theorem c3_malformed_first_header_is_content (D : String) (pre : List String) (m m2 : String)
    (rest : List String)
    (hsplit : pySplitlines D = pre ++ m :: rest)
    (hpre : ∀ l ∈ pre, isHeader l = false)
    (hm : isHeader m = true)
    (hlen : (pySplitSpace m).length < 3)
    (hm2 : isHeader m2 = false) :
    split_diff_by_file D = split_diff_by_file_lines (pre ++ m2 :: rest) ∧
    split_diff_by_file D = split_diff_by_file_lines rest := by
  have hext : extractName m = none := extractName_eq_none_of_short m hlen
  have h1 : split_diff_by_file D = split_diff_by_file_lines (pre ++ m :: rest) := by
    rw [split_diff_by_file, hsplit]
  rw [h1, split_lines_eq_buildDictAux, split_lines_eq_buildDictAux,
    split_lines_eq_buildDictAux, segmentize_append_content pre hpre (m :: rest),
    segmentize_append_content pre hpre (m2 :: rest)]
  simp only [segmentize, hm, hm2, if_pos, if_neg, Bool.false_eq_true, if_false, if_true]
  constructor
  · simp only [buildDictAux, hext, saveSeg]
    exact buildDictAux_none_acc _ _ _ _
  · simp only [buildDictAux, hext, saveSeg]
    exact buildDictAux_none_acc _ _ _ _

/-- Witness for C3 at a concrete diff text with junk before a malformed
first header. -/
theorem c3_witness :
    split_diff_by_file "junk\ndiff --git\ndiff --git a/f b/f\n+1" =
      split_diff_by_file_lines ["junk", "content", "diff --git a/f b/f", "+1"] ∧
    split_diff_by_file "junk\ndiff --git\ndiff --git a/f b/f\n+1" =
      split_diff_by_file_lines ["diff --git a/f b/f", "+1"] :=
  c3_malformed_first_header_is_content "junk\ndiff --git\ndiff --git a/f b/f\n+1"
    ["junk"] "diff --git" "content" ["diff --git a/f b/f", "+1"]
    (by decide) (by decide) (by decide) (by decide) (by decide)

/-! ## Claims about the generation request and the entry point -/

/-- C1 (code-bug evaluation): the `finally` block of
`generate_commit_message` runs `if pid: server.stop()`, so the stop
operation is invoked exactly when the pre-generation snapshot
`server.get_pid()` found a running server — the inverse of the claimed
condition (stop iff no server was running beforehand).  Evaluated with a
truthy snapshot (`pgrep` output `"1234"`) on both the success and the
error path of the inference call, and with a falsy snapshot. -/
theorem c1_stop_called_iff_snapshot_found_server :
    (generate_commit_message (some "1234") (fun _ => Except.ok "msg") "d").2 = true ∧
    (generate_commit_message (some "1234") (fun _ => Except.error "boom") "d").2 = true ∧
    (generate_commit_message none (fun _ => Except.ok "msg") "d").2 = false := by
  decide

/-- C2 (code-bug evaluation): on the rename-style header
`diff --git a/old b/new` the code keys the segment under `"old"` —
`parts[2][2:]` takes the first path token `a/old` (the pre-change path) and
strips two characters — not under the post-change path `"new"` announced by
the claim, the spec and the code's own comments. -/
theorem c2_key_is_prechange_path_on_rename :
    (split_diff_by_file "diff --git a/old b/new\n+x").map Prod.fst = ["old"] ∧
    (split_diff_by_file "diff --git a/old b/new\n+x").map Prod.fst ≠ ["new"] := by
  decide

/-- C4 counterexample: on the whitespace-only input `" "` the `__main__`
trace starts with the server start (liveness probe and possible spawn)
and only later prints the diagnostic and exits: a server interaction
strictly precedes the empty-input rejection, refuting the claimed
ordering. -/
theorem c4_counterexample_server_start_precedes_rejection :
    MainEv.serverStart ∈
      ((main_trace true (fun _ => true) " ").takeWhile
        fun e => decide (e ≠ MainEv.printNoDiff)) ∧
    MainEv.printNoDiff ∈ main_trace true (fun _ => true) " " := by
  decide

/-- C4 amended: an empty or whitespace-only diff input makes the entry
point print `"No diff provided!"` and exit with the non-success code 1,
before any LLM construction or inference call — but only after
`server.start()` has already run (the server interaction precedes the
validation). -/
theorem c4_empty_input_rejected_after_server_start (pre : Bool) (probe : Nat → Bool)
    (d : String)
    (hstart : ollamaStart pre probe ≠ StartResult.timeoutRaised)
    (hempty : pyStrip d = "") :
    main_trace pre probe d =
      [MainEv.serverStart, MainEv.readDiff, MainEv.printNoDiff, MainEv.exitCode 1] := by
  cases h : ollamaStart pre probe with
  | timeoutRaised => exact absurd h hstart
  | alreadyRunning => simp [main_trace, h, hempty]
  | running k => simp [main_trace, h, hempty]

/-- Witness for the amended C4 at the whitespace-only input `" \t"` with a
server already running. -/
theorem c4_witness :
    main_trace true (fun _ => false) " \t" =
      [MainEv.serverStart, MainEv.readDiff, MainEv.printNoDiff, MainEv.exitCode 1] :=
  c4_empty_input_rejected_after_server_start true (fun _ => false) " \t"
    (by decide) (by decide)

/-- C8 counterexample: with a probe stream that is false at every poll in
the 5-second deadline window (polls 0–10, at 0.0 s–5.0 s on the idealized
clock) and first becomes true at poll 11 (5.5 s, past the deadline),
`OllamaServer.start` succeeds instead of raising the timeout error: the
check `time.time() - start_time > timeout` runs only after a failed probe,
so liveness observed at the 5.5 s poll still counts as a successful start,
refuting "fails whenever liveness is not observed within the 5-second
deadline". -/
theorem c8_counterexample_probe_true_after_deadline :
    ollamaStart false (fun i => decide (i = 11)) = StartResult.running 11 ∧
    ollamaStart false (fun i => decide (i = 11)) ≠ StartResult.timeoutRaised := by
  decide

/-- C8 amended: if the server was not already running and the liveness
probe returns false at every poll of the waiting loop up to and including
the first poll at which the elapsed time exceeds the 5-second deadline
(polls at 0.5 s intervals, elapsed at most 5.5 s = 55 deciseconds), then
`OllamaServer.start` raises the startup-timeout `RuntimeError`; the
uncaught error aborts the entry point, so no inference call (and nothing
after it) ever appears in the request's trace. -/
theorem c8_timeout_raised_and_no_inference (pre : Bool) (probe : Nat → Bool) (d : String)
    (hpre : pre = false)
    (hprobe : ∀ i, elapsedDeci i ≤ 55 → probe i = false) :
    ollamaStart pre probe = StartResult.timeoutRaised ∧
    main_trace pre probe d = [MainEv.serverStart, MainEv.raiseStartTimeout] := by
  have h0 := hprobe 0 (by norm_num [elapsedDeci])
  have h1 := hprobe 1 (by norm_num [elapsedDeci])
  have h2 := hprobe 2 (by norm_num [elapsedDeci])
  have h3 := hprobe 3 (by norm_num [elapsedDeci])
  have h4 := hprobe 4 (by norm_num [elapsedDeci])
  have h5 := hprobe 5 (by norm_num [elapsedDeci])
  have h6 := hprobe 6 (by norm_num [elapsedDeci])
  have h7 := hprobe 7 (by norm_num [elapsedDeci])
  have h8 := hprobe 8 (by norm_num [elapsedDeci])
  have h9 := hprobe 9 (by norm_num [elapsedDeci])
  have h10 := hprobe 10 (by norm_num [elapsedDeci])
  have h11 := hprobe 11 (by norm_num [elapsedDeci])
  have hstart : ollamaStart pre probe = StartResult.timeoutRaised := by
    subst hpre
    simp [ollamaStart, startPollAux, elapsedDeci, h0, h1, h2, h3, h4, h5, h6, h7, h8,
      h9, h10, h11]
  exact ⟨hstart, by simp [main_trace, hstart]⟩

/-- Witness for the amended C8 with a probe that never succeeds. -/
theorem c8_witness :
    ollamaStart false (fun _ => false) = StartResult.timeoutRaised ∧
    main_trace false (fun _ => false) "x" = [MainEv.serverStart, MainEv.raiseStartTimeout] :=
  c8_timeout_raised_and_no_inference false (fun _ => false) "x" rfl (fun _ _ => rfl)

/-- C10: when `OllamaServer.start` spawns a process and the waiting loop
then raises the timeout error, `self.proc` still holds the spawned process
(start never terminates it), so a subsequent `stop` terminates exactly that
process and clears the handle; `stop` with no recorded handle terminates
nothing, and the early return of `start` (server already running) leaves
the state, hence the absent handle, untouched. -/
theorem c10_timeout_keeps_ownership (s : ServerState) (probe : Nat → Bool) (pid : Nat) :
    ((OllamaServer.start s false probe pid).2 = StartResult.timeoutRaised →
      (OllamaServer.start s false probe pid).1.proc = some pid ∧
      OllamaServer.stop (OllamaServer.start s false probe pid).1 =
        ({ proc := none }, some pid)) ∧
    (s.proc = none → OllamaServer.stop s = (s, none)) ∧
    OllamaServer.start s true probe pid = (s, StartResult.alreadyRunning) := by
  refine ⟨fun _ => ⟨?_, ?_⟩, fun h => ?_, ?_⟩
  · simp [OllamaServer.start]
  · simp [OllamaServer.start, OllamaServer.stop]
  · cases s with
    | mk proc => cases proc with
      | none => simp [OllamaServer.stop]
      | some p => simp at h
  · simp [OllamaServer.start]

/-- Witness for C10: a fresh instance, a probe that never succeeds, pid 7. -/
theorem c10_witness :
    (OllamaServer.start ⟨none⟩ false (fun _ => false) 7).1.proc = some 7 ∧
    OllamaServer.stop (OllamaServer.start ⟨none⟩ false (fun _ => false) 7).1 =
      ({ proc := none }, some 7) ∧
    OllamaServer.stop ⟨none⟩ = (⟨none⟩, none) :=
  ⟨((c10_timeout_keeps_ownership ⟨none⟩ (fun _ => false) 7).1 (by decide)).1,
   ((c10_timeout_keeps_ownership ⟨none⟩ (fun _ => false) 7).1 (by decide)).2,
   (c10_timeout_keeps_ownership ⟨none⟩ (fun _ => false) 7).2.1 rfl⟩

/-! ## Response clean-up (C7) -/

theorem matchCaseless_self_append (p r : List Char) : matchCaseless p (p ++ r) = some r := by
  induction p with
  | nil => simp [matchCaseless]
  | cons c cs ih => simp [matchCaseless, ih]

theorem matchCaseless_zip_append (p q : List Char) (r : List Char)
    (hlen : p.length = q.length)
    (hci : ∀ pr ∈ p.zip q, pr.1.toLower = pr.2.toLower) :
    matchCaseless p (q ++ r) = some r := by
  induction p generalizing q with
  | nil =>
    cases q with
    | nil => simp [matchCaseless]
    | cons b bs => simp at hlen
  | cons a as ih =>
    cases q with
    | nil => simp at hlen
    | cons b bs =>
      have hab : a.toLower = b.toLower := hci (a, b) (by simp [List.zip_cons_cons])
      have htail : ∀ pr ∈ as.zip bs, pr.1.toLower = pr.2.toLower := fun pr hpr =>
        hci pr (by simp [List.zip_cons_cons, hpr])
      simp only [List.cons_append, matchCaseless, hab, if_pos]
      exact ih bs (by simpa using hlen) htail

/-- C7: in `generate_commit_message`, when the filter reported an omission
the literal clause `" and updated documentation accordingly"` is appended
to the raw model response and only afterwards is the boilerplate stripped;
the stripping removes a case-insensitive `**Commit Message:**` present at
the very start of the string together with the whitespace following it;
and the end-to-end example: raw response
`"**Commit Message:** Fix off-by-one in parser"` with no omission yields
exactly `"Fix off-by-one in parser"`. -/
theorem c7_append_note_and_strip_boilerplate (pid : Option String) (d d2 raw s : String) :
    ((preprocess_diff d none).2 = true →
      (generate_commit_message pid (fun _ => Except.ok raw) d).1 =
        Except.ok (stripCommitTag (raw ++ " and updated documentation accordingly"))) ∧
    stripCommitTag ("**Commit Message:**" ++ s) =
      String.mk (List.dropWhile pyIsSpace s.data) ∧
    stripCommitTag ("**COMMIT MESSAGE:**" ++ s) =
      String.mk (List.dropWhile pyIsSpace s.data) ∧
    ((preprocess_diff d2 none).2 = false →
      (generate_commit_message pid
          (fun _ => Except.ok "**Commit Message:** Fix off-by-one in parser") d2).1 =
        Except.ok "Fix off-by-one in parser") := by
  refine ⟨fun h => ?_, ?_, ?_, fun h => ?_⟩
  · simp [generate_commit_message, h]
  · have hdata : ("**Commit Message:**" ++ s).data = commitTagChars ++ s.data := by
      rw [String.data_append]; rfl
    rw [stripCommitTag, hdata]
    rw [show List.dropWhile pyIsSpace (commitTagChars ++ s.data) = commitTagChars ++ s.data
      from rfl]
    rw [matchCaseless_self_append]
  · have hdata : ("**COMMIT MESSAGE:**" ++ s).data = "**COMMIT MESSAGE:**".data ++ s.data :=
      String.data_append _ _
    rw [stripCommitTag, hdata]
    rw [show List.dropWhile pyIsSpace ("**COMMIT MESSAGE:**".data ++ s.data) =
        "**COMMIT MESSAGE:**".data ++ s.data from rfl]
    rw [matchCaseless_zip_append commitTagChars "**COMMIT MESSAGE:**".data s.data
      (by decide) (by decide)]
  · simp only [generate_commit_message, h, if_neg, Bool.false_eq_true, if_false]
    have : stripCommitTag "**Commit Message:** Fix off-by-one in parser" =
        "Fix off-by-one in parser" := by decide
    rw [this]

/-- Witness for C7: an omission-producing diff for the appending clause, a
concrete suffix for the stripping clauses, the empty diff for the
end-to-end example. -/
theorem c7_witness :
    (generate_commit_message (some "1") (fun _ => Except.ok "m")
        "diff --git a/pyproject.toml b/pyproject.toml\n+1").1 =
      Except.ok (stripCommitTag ("m" ++ " and updated documentation accordingly")) ∧
    stripCommitTag ("**Commit Message:**" ++ "  hi") =
      String.mk (List.dropWhile pyIsSpace "  hi".data) ∧
    (generate_commit_message (some "1")
        (fun _ => Except.ok "**Commit Message:** Fix off-by-one in parser") "").1 =
      Except.ok "Fix off-by-one in parser" :=
  ⟨(c7_append_note_and_strip_boilerplate (some "1")
      "diff --git a/pyproject.toml b/pyproject.toml\n+1" "" "m" "  hi").1 (by decide),
   (c7_append_note_and_strip_boilerplate (some "1")
      "diff --git a/pyproject.toml b/pyproject.toml\n+1" "" "m" "  hi").2.1,
   (c7_append_note_and_strip_boilerplate (some "1")
      "diff --git a/pyproject.toml b/pyproject.toml\n+1" "" "m" "  hi").2.2.2 (by decide)⟩

/-! ## Ordered-dictionary lemmas -/

/-- Lookup in the ordered association list modelling a Python `dict`. -/
def pyLookup (k : String) : List (String × String) → Option String
  | [] => none
  | p :: d => if p.1 = k then some p.2 else pyLookup k d

/-- One save step of the segment view: insert the entry unless its key is
empty (the falsy-`current_file` guard). -/
def insertNE (d : List (String × String)) (p : String × String) : List (String × String) :=
  if p.1 ≠ "" then pyDictInsert d p.1 p.2 else d

/-- First-occurrence deduplication (the key order of a Python `dict` built
by repeated assignment). -/
def dedupGo : List String → List String → List String
  | [], _ => []
  | a :: l, seen => if a ∈ seen then dedupGo l seen else a :: dedupGo l (a :: seen)

/-- Keys in first-appearance order. -/
def firstDedup (l : List String) : List String := dedupGo l []

theorem any_key_eq_mem (d : List (String × String)) (k : String) :
    (d.any fun p => decide (p.1 = k)) = true ↔ k ∈ d.map Prod.fst := by
  rw [List.any_eq_true]
  constructor
  · rintro ⟨p, hp, hd⟩
    exact List.mem_map.mpr ⟨p, hp, of_decide_eq_true hd⟩
  · intro h
    rcases List.mem_map.mp h with ⟨p, hp, hpk⟩
    exact ⟨p, hp, decide_eq_true hpk⟩

theorem keys_pyDictInsert (d : List (String × String)) (k v : String) :
    (pyDictInsert d k v).map Prod.fst =
      if k ∈ d.map Prod.fst then d.map Prod.fst else d.map Prod.fst ++ [k] := by
  by_cases hk : k ∈ d.map Prod.fst
  · have hany : (d.any fun p => decide (p.1 = k)) = true := (any_key_eq_mem d k).mpr hk
    rw [pyDictInsert, if_pos hany, if_pos hk, List.map_map]
    refine List.map_congr_left fun p _ => ?_
    by_cases hp : p.1 = k
    · simp [Function.comp, hp]
    · simp [Function.comp, hp]
  · have hany : ¬ (d.any fun p => decide (p.1 = k)) = true := fun h =>
      hk ((any_key_eq_mem d k).mp h)
    simp [pyDictInsert, hany, hk]

theorem mem_pyDictInsert (d : List (String × String)) (k v : String) (p : String × String)
    (hp : p ∈ pyDictInsert d k v) : p ∈ d ∨ p = (k, v) := by
  by_cases hany : (d.any fun q => decide (q.1 = k)) = true
  · simp only [pyDictInsert, hany, if_true] at hp
    rcases List.mem_map.mp hp with ⟨q, hq, hqp⟩
    by_cases hqk : q.1 = k
    · right; simp only [hqk, if_true, if_pos] at hqp; exact hqp.symm
    · left; simp only [hqk, if_false, if_neg, not_false_iff] at hqp; exact hqp ▸ hq
  · simp only [pyDictInsert, hany, if_false] at hp
    rcases List.mem_append.mp hp with h | h
    · exact Or.inl h
    · exact Or.inr (List.mem_singleton.mp h)

theorem nodup_keys_pyDictInsert (d : List (String × String)) (k v : String)
    (hd : (d.map Prod.fst).Nodup) : ((pyDictInsert d k v).map Prod.fst).Nodup := by
  rw [keys_pyDictInsert]
  by_cases hk : k ∈ d.map Prod.fst
  · simpa [hk] using hd
  · simp only [hk, if_false]
    exact List.Nodup.append hd (List.nodup_singleton k)
      (fun a ha hb => hk (by simpa [List.mem_singleton.mp hb] using ha))

theorem pyLookup_map_update (d : List (String × String)) (k v : String)
    (h : ∃ q ∈ d, q.1 = k) :
    pyLookup k (d.map fun p => if p.1 = k then (k, v) else p) = some v := by
  induction d with
  | nil => simp at h
  | cons p rest ih =>
    by_cases hp : p.1 = k
    · simp [pyLookup, hp]
    · have hrest : ∃ q ∈ rest, q.1 = k := by
        rcases h with ⟨q, hq, hqk⟩
        rcases List.mem_cons.mp hq with rfl | hq2
        · exact absurd hqk hp
        · exact ⟨q, hq2, hqk⟩
      simp [pyLookup, hp, ih hrest]

theorem pyLookup_append_last (d : List (String × String)) (k v : String)
    (h : ∀ q ∈ d, q.1 ≠ k) : pyLookup k (d ++ [(k, v)]) = some v := by
  induction d with
  | nil => simp [pyLookup]
  | cons p rest ih =>
    have hp : p.1 ≠ k := h p (by simp)
    simp only [List.cons_append, pyLookup, hp, if_neg, if_false]
    exact ih fun q hq => h q (by simp [hq])

theorem pyLookup_pyDictInsert_self (d : List (String × String)) (k v : String) :
    pyLookup k (pyDictInsert d k v) = some v := by
  by_cases hany : (d.any fun q => decide (q.1 = k)) = true
  · rcases List.any_eq_true.mp hany with ⟨q, hq, hqk⟩
    simp only [pyDictInsert, hany, if_true]
    exact pyLookup_map_update d k v ⟨q, hq, of_decide_eq_true hqk⟩
  · simp only [pyDictInsert, hany, if_false]
    refine pyLookup_append_last d k v fun q hq hqk => hany ?_
    exact List.any_eq_true.mpr ⟨q, hq, decide_eq_true hqk⟩

theorem pyLookup_map_update_ne (d : List (String × String)) (k k' v : String)
    (hne : k ≠ k') :
    pyLookup k (d.map fun p => if p.1 = k' then (k', v) else p) = pyLookup k d := by
  induction d with
  | nil => simp
  | cons p rest ih =>
    by_cases hp : p.1 = k'
    · have hmap : (if p.1 = k' then (k', v) else p) = (k', v) := if_pos hp
      have h1 : ¬ ((k' : String) = k) := fun h => hne h.symm
      have h2 : ¬ (p.1 = k) := fun h => hne (h ▸ hp)
      rw [List.map_cons, hmap]
      simp only [pyLookup]
      rw [if_neg h1, if_neg h2, ih]
    · have hmap : (if p.1 = k' then (k', v) else p) = p := if_neg hp
      rw [List.map_cons, hmap]
      simp only [pyLookup, ih]

theorem pyLookup_append_ne (d : List (String × String)) (k k' v : String)
    (hne : k ≠ k') : pyLookup k (d ++ [(k', v)]) = pyLookup k d := by
  induction d with
  | nil =>
    have h1 : ¬ ((k' : String) = k) := fun h => hne h.symm
    simp [pyLookup, h1]
  | cons p rest ih =>
    rw [List.cons_append]
    simp only [pyLookup, ih]

theorem pyLookup_pyDictInsert_ne (d : List (String × String)) (k k' v : String)
    (hne : k ≠ k') : pyLookup k (pyDictInsert d k' v) = pyLookup k d := by
  by_cases hany : (d.any fun q => decide (q.1 = k')) = true
  · simp only [pyDictInsert, hany, if_true]
    exact pyLookup_map_update_ne d k k' v hne
  · simp only [pyDictInsert, hany, if_false]
    exact pyLookup_append_ne d k k' v hne

/-- Effect of one save on the key list. -/
def insKeysNE (ks : List String) (k : String) : List String :=
  if k = "" then ks else if k ∈ ks then ks else ks ++ [k]

theorem keys_insertNE (d : List (String × String)) (p : String × String) :
    (insertNE d p).map Prod.fst = insKeysNE (d.map Prod.fst) p.1 := by
  by_cases h : p.1 = ""
  · simp [insertNE, h, insKeysNE]
  · rw [insertNE, if_pos h, keys_pyDictInsert, insKeysNE, if_neg h]

theorem keys_foldl_insertNE (es : List (String × String)) (d : List (String × String)) :
    (es.foldl insertNE d).map Prod.fst =
      (es.map Prod.fst).foldl insKeysNE (d.map Prod.fst) := by
  induction es generalizing d with
  | nil => rfl
  | cons e t ih => rw [List.foldl_cons, List.map_cons, List.foldl_cons, ih, keys_insertNE]

theorem dedupGo_congr (l : List String) (s1 s2 : List String)
    (h : ∀ x, x ∈ s1 ↔ x ∈ s2) : dedupGo l s1 = dedupGo l s2 := by
  induction l generalizing s1 s2 with
  | nil => rfl
  | cons a t ih =>
    by_cases ha : a ∈ s1
    · have ha2 : a ∈ s2 := (h a).mp ha
      simp only [dedupGo, ha, ha2, if_pos, if_true]
      exact ih s1 s2 h
    · have ha2 : a ∉ s2 := fun hx => ha ((h a).mpr hx)
      simp only [dedupGo, ha, ha2, if_neg, if_false]
      exact congrArg _ (ih (a :: s1) (a :: s2) fun x => by simp [h x])

theorem foldl_insKeysNE_eq_dedup (ks : List String) (acc : List String)
    (h : ∀ k ∈ ks, k ≠ "") :
    ks.foldl insKeysNE acc = acc ++ dedupGo ks acc := by
  induction ks generalizing acc with
  | nil => simp [dedupGo]
  | cons a t ih =>
    have ha : a ≠ "" := h a (by simp)
    have ht : ∀ k ∈ t, k ≠ "" := fun k hk => h k (by simp [hk])
    by_cases hmem : a ∈ acc
    · rw [List.foldl_cons, show insKeysNE acc a = acc by simp [insKeysNE, ha, hmem],
        ih acc ht, show dedupGo (a :: t) acc = dedupGo t acc by simp [dedupGo, hmem]]
    · rw [List.foldl_cons, show insKeysNE acc a = acc ++ [a] by simp [insKeysNE, ha, hmem],
        ih (acc ++ [a]) ht,
        show dedupGo (a :: t) acc = a :: dedupGo t (a :: acc) by simp [dedupGo, hmem],
        dedupGo_congr t (acc ++ [a]) (a :: acc) fun x => by simp [or_comm]]
      simp

theorem nodup_insKeysNE (ks : List String) (k : String) (h : ks.Nodup) :
    (insKeysNE ks k).Nodup := by
  by_cases h0 : k = ""
  · simpa [insKeysNE, h0] using h
  · by_cases hm : k ∈ ks
    · simpa [insKeysNE, h0, hm] using h
    · simp only [insKeysNE, h0, hm, if_neg, if_false]
      exact List.Nodup.append h (List.nodup_singleton k)
        (fun a ha hb => hm (by simpa [List.mem_singleton.mp hb] using ha))

theorem nodup_keys_foldl_insertNE (es : List (String × String)) (d : List (String × String))
    (hd : (d.map Prod.fst).Nodup) : ((es.foldl insertNE d).map Prod.fst).Nodup := by
  induction es generalizing d with
  | nil => exact hd
  | cons e t ih =>
    rw [List.foldl_cons]
    refine ih (insertNE d e) ?_
    rw [keys_insertNE]
    exact nodup_insKeysNE _ _ hd

theorem mem_foldl_insertNE (es : List (String × String)) (d : List (String × String))
    (p : String × String) (hp : p ∈ es.foldl insertNE d) : p ∈ d ∨ p ∈ es := by
  induction es generalizing d with
  | nil => exact Or.inl hp
  | cons e t ih =>
    rw [List.foldl_cons] at hp
    rcases ih (insertNE d e) hp with h | h
    · by_cases he : e.1 = ""
      · rw [insertNE, if_neg (by simp [he])] at h
        exact Or.inl h
      · rw [insertNE, if_pos he] at h
        rcases mem_pyDictInsert d e.1 e.2 p h with h2 | h2
        · exact Or.inl h2
        · exact Or.inr (by simp [h2])
    · exact Or.inr (by simp [h])

theorem pyLookup_foldl_insertNE (es : List (String × String)) (d : List (String × String))
    (k : String) (hk : k ≠ "") :
    pyLookup k (es.foldl insertNE d) =
      (((es.filter fun p => decide (p.1 = k)).getLast?).map Prod.snd).or (pyLookup k d) := by
  induction es generalizing d with
  | nil => simp
  | cons e t ih =>
    rw [List.foldl_cons, ih (insertNE d e)]
    by_cases he : e.1 = k
    · have hne : e.1 ≠ "" := fun h => hk (he ▸ h)
      have hlv : pyLookup k (insertNE d e) = some e.2 := by
        rw [insertNE, if_pos hne, he]
        exact pyLookup_pyDictInsert_self d k e.2
      rw [hlv, List.filter_cons, if_pos (decide_eq_true he)]
      cases hft : (t.filter fun p => decide (p.1 = k)) with
      | nil => simp [hft]
      | cons f fs =>
        rw [List.getLast?_cons_cons]
        cases hX : (f :: fs).getLast? with
        | none => exact absurd (List.getLast?_eq_none_iff.mp hX) (by simp)
        | some a => simp
    · have hlv : pyLookup k (insertNE d e) = pyLookup k d := by
        by_cases h0 : e.1 = ""
        · rw [insertNE, if_neg (by simp [h0])]
        · rw [insertNE, if_pos h0]
          exact pyLookup_pyDictInsert_ne d k e.1 e.2 fun h => he h.symm
      rw [hlv, List.filter_cons, if_neg (by simp [he])]

theorem foldl_insertNE_eq_append (es : List (String × String)) (d : List (String × String))
    (hnd : (es.map Prod.fst).Nodup)
    (hne : ∀ p ∈ es, p.1 ≠ "")
    (hdisj : ∀ p ∈ es, p.1 ∉ d.map Prod.fst) :
    es.foldl insertNE d = d ++ es := by
  induction es generalizing d with
  | nil => simp
  | cons e t ih =>
    have he : e.1 ≠ "" := hne e (by simp)
    have hem : e.1 ∉ d.map Prod.fst := hdisj e (by simp)
    have hnd2 : (e.1 :: t.map Prod.fst).Nodup := by simpa using hnd
    have hins : insertNE d e = d ++ [e] := by
      rw [insertNE, if_pos he, pyDictInsert,
        if_neg (fun h => hem ((any_key_eq_mem d e.1).mp h))]
    rw [List.foldl_cons, hins, ih (d ++ [e]) (List.nodup_cons.mp hnd2).2
      (fun p hp => hne p (by simp [hp])) ?disj]
    · simp
    case disj =>
      intro p hp hmem
      rw [List.map_append, List.mem_append] at hmem
      rcases hmem with h | h
      · exact hdisj p (by simp [hp]) h
      · have h1 : p.1 = e.1 := by simpa using h
        exact (List.nodup_cons.mp hnd2).1 (h1 ▸ List.mem_map.mpr ⟨p, hp, rfl⟩)

/-! ## Segment-view lemmas -/

theorem segmentize_junk_no_header (ls : List String) :
    ∀ l ∈ (segmentize ls).1, isHeader l = false := by
  induction ls with
  | nil => simp [segmentize]
  | cons a t ih =>
    cases ha : isHeader a with
    | true => simp [segmentize, ha]
    | false =>
      intro l hl
      simp only [segmentize, ha, Bool.false_eq_true, if_false] at hl
      rcases List.mem_cons.mp hl with rfl | h
      · exact ha
      · exact ih l h

theorem segmentize_heads (ls : List String) :
    ∀ p ∈ (segmentize ls).2, isHeader p.1 = true ∧ ∀ l ∈ p.2, isHeader l = false := by
  induction ls with
  | nil => simp [segmentize]
  | cons a t ih =>
    cases ha : isHeader a with
    | true =>
      intro p hp
      simp only [segmentize, ha, if_true] at hp
      rcases List.mem_cons.mp hp with rfl | h
      · exact ⟨ha, segmentize_junk_no_header t⟩
      · exact ih p h
    | false =>
      intro p hp
      simp only [segmentize, ha, Bool.false_eq_true, if_false] at hp
      exact ih p hp

theorem segmentize_flatten (ls : List String) :
    (segmentize ls).1 ++ ((segmentize ls).2.map segLines).flatten = ls := by
  induction ls with
  | nil => simp [segmentize]
  | cons a t ih =>
    cases ha : isHeader a with
    | true =>
      simp only [segmentize, ha, if_true, List.map_cons, List.flatten_cons, segLines,
        List.nil_append, List.cons_append]
      exact congrArg (a :: ·) ih
    | false =>
      simp only [segmentize, ha, Bool.false_eq_true, if_false, List.cons_append]
      exact congrArg (a :: ·) ih

theorem segmentize_of_flatten (segs : List (String × List String))
    (h : ∀ p ∈ segs, isHeader p.1 = true ∧ ∀ l ∈ p.2, isHeader l = false) :
    segmentize ((segs.map segLines).flatten) = ([], segs) := by
  induction segs with
  | nil => simp [segmentize]
  | cons p rest ih =>
    obtain ⟨hd, c⟩ := p
    have hhd : isHeader hd = true := (h (hd, c) (by simp)).1
    have hc : ∀ l ∈ c, isHeader l = false := (h (hd, c) (by simp)).2
    have hrest : ∀ q ∈ rest, isHeader q.1 = true ∧ ∀ l ∈ q.2, isHeader l = false :=
      fun q hq => h q (by simp [hq])
    simp only [List.map_cons, List.flatten_cons, segLines, List.cons_append]
    rw [segmentize]
    rw [if_pos hhd, segmentize_append_content c hc, ih hrest]
    simp

theorem saveSeg_cons_eq_insertNE (d : List (String × String)) (k hd : String)
    (c : List String) :
    saveSeg d (some k) (hd :: c) = insertNE d (k, joinNL (hd :: c)) := by
  by_cases h : k = ""
  · simp [saveSeg, insertNE, h]
  · simp [saveSeg, insertNE, h]

theorem buildDictAux_entries (segs : List (String × List String)) (cur : Option String)
    (acc : List String) (d : List (String × String))
    (h : ∀ p ∈ segs, (extractName p.1).isSome) :
    buildDictAux cur acc d segs = (segs.map entryOf).foldl insertNE (saveSeg d cur acc) := by
  induction segs generalizing cur acc d with
  | nil => simp [buildDictAux]
  | cons p rest ih =>
    obtain ⟨hd, c⟩ := p
    obtain ⟨k, hk⟩ := Option.isSome_iff_exists.mp (h (hd, c) (by simp))
    have hrest : ∀ q ∈ rest, (extractName q.1).isSome := fun q hq => h q (by simp [hq])
    simp only [buildDictAux, hk]
    rw [ih _ _ _ hrest, List.map_cons, List.foldl_cons, saveSeg_cons_eq_insertNE]
    have he : entryOf (hd, c) = (k, joinNL (hd :: c)) := by simp [entryOf, hk]
    rw [he]

theorem split_lines_entries (ls : List String)
    (h : ∀ p ∈ (segmentize ls).2, (extractName p.1).isSome) :
    split_diff_by_file_lines ls = ((segmentize ls).2.map entryOf).foldl insertNE [] := by
  rw [split_lines_eq_buildDictAux, buildDictAux_entries _ _ _ _ h]
  rfl

/-- The filename each segment's header extracts (the per-header value of
`parts[2][2:]` in first-appearance order of the header lines). -/
def extractedPaths (ls : List String) : List String :=
  (segmentize ls).2.map fun p => (extractName p.1).getD ""

/-- C9: when every header line is well-formed (at least 3 tokens) and
extracts a nonempty path, the mapping returned by `split_diff_by_file`
has exactly the distinct extracted paths as keys, in first-appearance
order — so its size is the number of distinct extracted paths, not the
number of header lines — and the value stored under a path is the segment
accumulated from the last header occurrence of that path (the later
segment silently overwrites the earlier one under the same key). -/
theorem c9_last_occurrence_wins (D : String)
    (h1 : ∀ p ∈ (segmentize (pySplitlines D)).2, (extractName p.1).isSome)
    (h2 : ∀ p ∈ (segmentize (pySplitlines D)).2, (extractName p.1).getD "" ≠ "") :
    (split_diff_by_file D).map Prod.fst = firstDedup (extractedPaths (pySplitlines D)) ∧
    (split_diff_by_file D).length = (firstDedup (extractedPaths (pySplitlines D))).length ∧
    (∀ k, k ≠ "" →
      pyLookup k (split_diff_by_file D) =
        (((segmentize (pySplitlines D)).2.filter fun p =>
            decide ((extractName p.1).getD "" = k)).getLast?).map
          fun p => joinNL (p.1 :: p.2)) := by
  have hsplit : split_diff_by_file D =
      ((segmentize (pySplitlines D)).2.map entryOf).foldl insertNE [] := by
    rw [split_diff_by_file, split_lines_entries _ h1]
  have hkeysmap : (((segmentize (pySplitlines D)).2.map entryOf).map Prod.fst) =
      extractedPaths (pySplitlines D) := by
    rw [List.map_map]; rfl
  have hkeys : (split_diff_by_file D).map Prod.fst =
      firstDedup (extractedPaths (pySplitlines D)) := by
    rw [hsplit, keys_foldl_insertNE, hkeysmap]
    rw [foldl_insKeysNE_eq_dedup _ _ ?_]
    · simp [firstDedup]
    · intro k hk
      rcases List.mem_map.mp hk with ⟨p, hp, rfl⟩
      exact h2 p hp
  refine ⟨hkeys, ?_, ?_⟩
  · rw [← hkeys, List.length_map]
  · intro k hk
    rw [hsplit, pyLookup_foldl_insertNE _ _ k hk,
      show pyLookup k ([] : List (String × String)) = none from rfl, Option.or_none,
      List.filter_map, List.getLast?_map, Option.map_map]
    rfl

/-- Witness for C9 at a diff whose path `f` appears in two header lines
around a `g` header. -/
theorem c9_witness :
    (split_diff_by_file
        "diff --git a/f b/f\n+1\ndiff --git a/g b/g\n+2\ndiff --git a/f b/f\n+3").map
        Prod.fst =
      firstDedup (extractedPaths (pySplitlines
        "diff --git a/f b/f\n+1\ndiff --git a/g b/g\n+2\ndiff --git a/f b/f\n+3")) ∧
    pyLookup "f" (split_diff_by_file
        "diff --git a/f b/f\n+1\ndiff --git a/g b/g\n+2\ndiff --git a/f b/f\n+3") =
      (((segmentize (pySplitlines
          "diff --git a/f b/f\n+1\ndiff --git a/g b/g\n+2\ndiff --git a/f b/f\n+3")).2.filter
            fun p => decide ((extractName p.1).getD "" = "f")).getLast?).map
        fun p => joinNL (p.1 :: p.2) :=
  ⟨(c9_last_occurrence_wins
      "diff --git a/f b/f\n+1\ndiff --git a/g b/g\n+2\ndiff --git a/f b/f\n+3"
      (by decide) (by decide)).1,
   (c9_last_occurrence_wins
      "diff --git a/f b/f\n+1\ndiff --git a/g b/g\n+2\ndiff --git a/f b/f\n+3"
      (by decide) (by decide)).2.2 "f" (by decide)⟩

/-! ## Joining and splitting round-trips -/

theorem joinNLList_cons_cons (a b : List Char) (t : List (List Char)) :
    joinNLList (a :: b :: t) = a ++ '\n' :: joinNLList (b :: t) := rfl

theorem linesOf_eq_nil_iff (cs : List Char) : linesOf cs = [] ↔ cs = [] := by
  cases cs with
  | nil => simp [linesOf]
  | cons c rest =>
    constructor
    · intro h
      by_cases hc : c = '\n'
      · simp [linesOf, hc] at h
      · simp only [linesOf, hc, if_neg, if_false] at h
        cases hr : linesOf rest with
        | nil => rw [hr] at h; exact absurd h (by simp)
        | cons l ls => rw [hr] at h; exact absurd h (by simp)
    · intro h; exact absurd h (by simp)

theorem joinNLList_linesOf (cs : List Char) :
    joinNLList (linesOf cs) = cs ∨ joinNLList (linesOf cs) ++ ['\n'] = cs := by
  induction cs with
  | nil => left; rfl
  | cons c rest ih =>
    by_cases hc : c = '\n'
    · subst hc
      cases hr : linesOf rest with
      | nil =>
        have hrest : rest = [] := (linesOf_eq_nil_iff rest).mp hr
        right
        simp [linesOf, hr, joinNLList, hrest]
      | cons l ls =>
        rw [hr] at ih
        simp only [linesOf, if_pos, if_true, hr, joinNLList_cons_cons, List.nil_append]
        rcases ih with h | h
        · left; rw [h]
        · right; rw [List.cons_append, h]
    · cases hr : linesOf rest with
      | nil =>
        have hrest : rest = [] := (linesOf_eq_nil_iff rest).mp hr
        left
        simp [linesOf, hc, hr, joinNLList, hrest]
      | cons l ls =>
        rw [hr] at ih
        cases ls with
        | nil =>
          simp only [linesOf, hc, Bool.false_eq_true, if_false, hr, joinNLList]
          rcases ih with h | h
          · left; rw [show joinNLList [l] = l from rfl] at h; rw [h]
          · right; rw [show joinNLList [l] = l from rfl] at h
            rw [List.cons_append, h]
        | cons m ms =>
          simp only [linesOf, hc, Bool.false_eq_true, if_false, hr, joinNLList_cons_cons,
            List.cons_append]
          rcases ih with h | h
          · left
            rw [joinNLList_cons_cons] at h
            exact congrArg (c :: ·) h
          · right
            rw [joinNLList_cons_cons] at h
            exact congrArg (c :: ·) h

theorem pyRstrip_concat_newline (xs : List Char) :
    (List.dropWhile pyIsSpace (xs ++ ['\n']).reverse).reverse =
      (List.dropWhile pyIsSpace xs.reverse).reverse := by
  rw [List.reverse_append]
  simp [List.dropWhile_cons, pyIsSpace]

theorem joinNL_data_eq (D : String) :
    (joinNL (pySplitlines D)).data = joinNLList (linesOf D.data) := by
  show joinNLList ((pySplitlines D).map String.data) = joinNLList (linesOf D.data)
  rw [pySplitlines, List.map_map,
    show List.map (String.data ∘ String.mk) (linesOf D.data) =
      List.map id (linesOf D.data) from rfl, List.map_id]

theorem pyRstrip_joinNL_pySplitlines (D : String) :
    pyRstrip (joinNL (pySplitlines D)) = pyRstrip D := by
  rcases joinNLList_linesOf D.data with h | h
  · unfold pyRstrip
    rw [joinNL_data_eq, h]
  · unfold pyRstrip
    rw [joinNL_data_eq]
    conv_rhs => rw [← h]
    exact congrArg String.mk (pyRstrip_concat_newline _).symm

theorem joinNLList_append (a b : List (List Char)) (ha : a ≠ []) (hb : b ≠ []) :
    joinNLList (a ++ b) = joinNLList a ++ '\n' :: joinNLList b := by
  induction a with
  | nil => exact absurd rfl ha
  | cons x t ih =>
    cases t with
    | nil =>
      cases b with
      | nil => exact absurd rfl hb
      | cons y u => simp [joinNLList_cons_cons, joinNLList]
    | cons z u =>
      simp only [List.cons_append, joinNLList_cons_cons]
      have ih2 := ih (by simp)
      simp only [List.cons_append] at ih2
      rw [ih2]
      simp [List.append_assoc]

theorem joinNLList_flatten (XSS : List (List (List Char))) (h : ∀ x ∈ XSS, x ≠ []) :
    joinNLList (XSS.map joinNLList) = joinNLList XSS.flatten := by
  induction XSS with
  | nil => rfl
  | cons x rest ih =>
    cases rest with
    | nil => simp [joinNLList]
    | cons y t =>
      have hx : x ≠ [] := h x (by simp)
      have hy : y ≠ [] := h y (by simp)
      have hflat : (y :: t).flatten ≠ [] := by
        intro hf
        exact hy (List.flatten_eq_nil_iff.mp hf y (by simp))
      have hm : ∀ z ∈ y :: t, z ≠ [] := fun z hz => h z (by simp [hz])
      rw [List.map_cons, List.flatten_cons, List.map_cons, joinNLList_cons_cons,
        ← List.map_cons, ih hm, joinNLList_append x (y :: t).flatten hx hflat]

theorem joinNL_map_joinNL (xss : List (List String)) (h : ∀ x ∈ xss, x ≠ []) :
    joinNL (xss.map joinNL) = joinNL xss.flatten := by
  apply String.ext
  show joinNLList ((xss.map joinNL).map String.data) =
    joinNLList (xss.flatten.map String.data)
  have h1 : (xss.map joinNL).map String.data =
      (xss.map (List.map String.data)).map joinNLList := by
    simp only [List.map_map]
    rfl
  rw [h1, joinNLList_flatten _ ?_, List.map_flatten]
  intro x hx
  rcases List.mem_map.mp hx with ⟨y, hy, rfl⟩
  intro hnil
  exact h y hy (List.map_eq_nil_iff.mp hnil)

/-- C5 counterexample: the one-line diff text `"hello"` has no header, so
`split_diff_by_file` discards it entirely and the concatenation of the
(zero) values is empty — not `"hello"`, even modulo trailing whitespace. -/
theorem c5_counterexample_reconstruction_fails :
    pyRstrip (joinNL ((split_diff_by_file "hello").map Prod.snd)) ≠ pyRstrip "hello" := by
  decide

/-- C5 amended: joining the values of `split_diff_by_file D` with newlines
(in their first-appearance order) reconstructs `D` modulo trailing
whitespace, provided nothing is discarded or overwritten: `D`'s first line
is a header line, every header is well-formed (at least 3 tokens) with a
nonempty extracted path, and no two headers extract the same path. -/
theorem c5_reconstruction_under_wellformedness (D : String)
    (hjunk : (segmentize (pySplitlines D)).1 = [])
    (h1 : ∀ p ∈ (segmentize (pySplitlines D)).2, (extractName p.1).isSome)
    (h2 : ∀ p ∈ (segmentize (pySplitlines D)).2, (extractName p.1).getD "" ≠ "")
    (h3 : (extractedPaths (pySplitlines D)).Nodup) :
    pyRstrip (joinNL ((split_diff_by_file D).map Prod.snd)) = pyRstrip D := by
  have hnd : (((segmentize (pySplitlines D)).2.map entryOf).map Prod.fst).Nodup := by
    rw [List.map_map]; exact h3
  have hne : ∀ p ∈ (segmentize (pySplitlines D)).2.map entryOf, p.1 ≠ "" := by
    intro p hp
    rcases List.mem_map.mp hp with ⟨q, hq, rfl⟩
    exact h2 q hq
  have hdisj : ∀ p ∈ (segmentize (pySplitlines D)).2.map entryOf,
      p.1 ∉ (([] : List (String × String)).map Prod.fst) := by
    intro p hp
    simp
  have hes : split_diff_by_file D = (segmentize (pySplitlines D)).2.map entryOf := by
    rw [split_diff_by_file, split_lines_entries _ h1,
      foldl_insertNE_eq_append _ _ hnd hne hdisj, List.nil_append]
  have hvals : (split_diff_by_file D).map Prod.snd =
      ((segmentize (pySplitlines D)).2.map segLines).map joinNL := by
    rw [hes, List.map_map, List.map_map]; rfl
  have hflat : ((segmentize (pySplitlines D)).2.map segLines).flatten = pySplitlines D := by
    have h := segmentize_flatten (pySplitlines D)
    rw [hjunk, List.nil_append] at h
    exact h
  rw [hvals, joinNL_map_joinNL _ (fun x hx => ?_), hflat, pyRstrip_joinNL_pySplitlines]
  rcases List.mem_map.mp hx with ⟨q, hq, rfl⟩
  simp [segLines]

/-- Witness for the amended C5 at a two-file diff with a trailing newline. -/
theorem c5_witness :
    pyRstrip (joinNL ((split_diff_by_file
        "diff --git a/f b/f\n+1\ndiff --git a/g b/g\n-2\n").map Prod.snd)) =
      pyRstrip "diff --git a/f b/f\n+1\ndiff --git a/g b/g\n-2\n" :=
  c5_reconstruction_under_wellformedness "diff --git a/f b/f\n+1\ndiff --git a/g b/g\n-2\n"
    (by decide) (by decide) (by decide) (by decide)

/-! ## Idempotence machinery (C6) -/

theorem filterPairs_go (dfs : List String) (fd : List (String × String))
    (a : List (String × String)) (b : Bool) :
    fd.foldl (fun ab p => if p.1 ∈ dfs then (ab.1, true) else (ab.1 ++ [p], ab.2)) (a, b) =
      (a ++ fd.filter (fun p => decide (p.1 ∉ dfs)),
        b || fd.any fun p => decide (p.1 ∈ dfs)) := by
  induction fd generalizing a b with
  | nil => simp
  | cons p t ih =>
    by_cases hp : p.1 ∈ dfs
    · rw [List.foldl_cons, if_pos hp, ih, List.filter_cons,
        if_neg (by simp [hp]), List.any_cons]
      simp [hp]
    · rw [List.foldl_cons, if_neg hp, ih, List.filter_cons, if_pos (by simp [hp]),
        List.any_cons]
      simp [hp]

theorem filterPairs_eq (dfs : List String) (fd : List (String × String)) :
    filterPairs dfs fd =
      (fd.filter (fun p => decide (p.1 ∉ dfs)), fd.any fun p => decide (p.1 ∈ dfs)) := by
  rw [filterPairs, filterPairs_go]
  simp

theorem filterPairs_of_none_in (dfs : List String) (fd : List (String × String))
    (h : ∀ p ∈ fd, p.1 ∉ dfs) : filterPairs dfs fd = (fd, false) := by
  rw [filterPairs_eq,
    List.filter_eq_self.mpr fun p hp => decide_eq_true (h p hp),
    List.any_eq_false.mpr fun p hp hd => h p hp (of_decide_eq_true hd)]

theorem mem_foldl_insertNE_ne (es : List (String × String)) (d : List (String × String))
    (p : String × String) (hp : p ∈ es.foldl insertNE d) :
    p ∈ d ∨ (p ∈ es ∧ p.1 ≠ "") := by
  induction es generalizing d with
  | nil => exact Or.inl hp
  | cons e t ih =>
    rw [List.foldl_cons] at hp
    rcases ih (insertNE d e) hp with h | h
    · by_cases he : e.1 = ""
      · rw [insertNE, if_neg (by simp [he])] at h
        exact Or.inl h
      · rw [insertNE, if_pos he] at h
        rcases mem_pyDictInsert d e.1 e.2 p h with h2 | h2
        · exact Or.inl h2
        · refine Or.inr ⟨by simp [h2, Prod.mk.eta], ?_⟩
          rw [h2]
          exact he
    · exact Or.inr ⟨by simp [h.1], h.2⟩

theorem linesOf_cons_of_ne (c : Char) (rest : List Char) (hc : ¬ c = '\n') :
    linesOf (c :: rest) =
      match linesOf rest with
      | [] => [[c]]
      | l :: ls => (c :: l) :: ls := by
  conv_lhs => rw [linesOf]
  rw [if_neg hc]

theorem linesOf_no_nl (cs : List Char) : ∀ x ∈ linesOf cs, '\n' ∉ x := by
  induction cs with
  | nil => simp [linesOf]
  | cons c rest ih =>
    by_cases hc : c = '\n'
    · intro x hx
      simp only [linesOf, hc, if_pos, if_true] at hx
      rcases List.mem_cons.mp hx with rfl | h
      · simp
      · exact ih x h
    · intro x hx
      simp only [linesOf, hc, Bool.false_eq_true, if_false] at hx
      cases hr : linesOf rest with
      | nil =>
        rw [hr] at hx
        have hx2 : x = [c] := by simpa using hx
        subst hx2
        simp only [List.mem_singleton]
        exact fun hh => hc hh.symm
      | cons l ls =>
        rw [hr] at hx
        rcases List.mem_cons.mp hx with rfl | h
        · intro hmem
          rcases List.mem_cons.mp hmem with h1 | h1
          · exact hc h1.symm
          · exact ih l (by simp [hr]) h1
        · exact ih x (by simp [hr, h])

theorem pySplitlines_no_nl (D : String) : ∀ l ∈ pySplitlines D, '\n' ∉ l.data := by
  intro l hl
  rcases List.mem_map.mp hl with ⟨x, hx, rfl⟩
  exact linesOf_no_nl D.data x hx

theorem linesOf_of_no_nl (x : List Char) (h : '\n' ∉ x) (hne : x ≠ []) :
    linesOf x = [x] := by
  induction x with
  | nil => exact absurd rfl hne
  | cons c t ih =>
    have hc : c ≠ '\n' := fun hcc => h (by simp [hcc])
    cases t with
    | nil => simp [linesOf, hc]
    | cons d u =>
      have ht : linesOf (d :: u) = [d :: u] := ih (fun hm => h (by simp [hm])) (by simp)
      rw [linesOf_cons_of_ne c _ hc, ht]

theorem linesOf_append_nl (x s : List Char) (h : '\n' ∉ x) :
    linesOf (x ++ '\n' :: s) = x :: linesOf s := by
  induction x with
  | nil => simp [linesOf]
  | cons c t ih =>
    have hc : c ≠ '\n' := fun hcc => h (by simp [hcc])
    have ht := ih fun hm => h (by simp [hm])
    rw [List.cons_append]
    simp only [linesOf, hc, Bool.false_eq_true, if_false, ht]

theorem linesOf_joinNLList (XSS : List (List Char)) (h1 : ∀ x ∈ XSS, '\n' ∉ x)
    (h2 : XSS.getLast? ≠ some []) : linesOf (joinNLList XSS) = XSS := by
  induction XSS with
  | nil => rfl
  | cons x rest ih =>
    cases rest with
    | nil =>
      have hx : '\n' ∉ x := h1 x (by simp)
      have hne : x ≠ [] := by
        intro hxe
        exact h2 (by simp [hxe])
      simp only [joinNLList]
      exact linesOf_of_no_nl x hx hne
    | cons y t =>
      have hx : '\n' ∉ x := h1 x (by simp)
      rw [joinNLList_cons_cons, linesOf_append_nl x _ hx,
        ih (fun z hz => h1 z (by simp [hz])) (by rwa [List.getLast?_cons_cons] at h2)]

theorem pySplitlines_joinNL (ls : List String) (h1 : ∀ l ∈ ls, '\n' ∉ l.data)
    (h2 : ls.getLast? ≠ some "") : pySplitlines (joinNL ls) = ls := by
  have hdata : (joinNL ls).data = joinNLList (ls.map String.data) := rfl
  rw [pySplitlines, hdata, linesOf_joinNLList (ls.map String.data) ?h1c ?h2c]
  · rw [List.map_map]
    rw [show List.map (String.mk ∘ String.data) ls = List.map id ls from rfl, List.map_id]
  case h1c =>
    intro x hx
    rcases List.mem_map.mp hx with ⟨l, hl, rfl⟩
    exact h1 l hl
  case h2c =>
    intro hlast
    rw [List.getLast?_map] at hlast
    cases hl : ls.getLast? with
    | none => rw [hl] at hlast; exact absurd hlast (by simp)
    | some a =>
      rw [hl] at hlast
      have ha : a.data = [] := by simpa using hlast
      have : a = "" := String.ext ha
      exact h2 (by rw [hl, this])

theorem flatten_getLast_ne_empty (xss : List (List String))
    (hne : ∀ x ∈ xss, x ≠ []) (h : ∀ x ∈ xss, x.getLast? ≠ some "") :
    xss.flatten.getLast? ≠ some "" := by
  induction xss with
  | nil => simp
  | cons x rest ih =>
    have hxl : x.getLast? ≠ some "" := h x (by simp)
    have hner : ∀ z ∈ rest, z ≠ [] := fun z hz => hne z (by simp [hz])
    have hhr : ∀ z ∈ rest, z.getLast? ≠ some "" := fun z hz => h z (by simp [hz])
    cases rest with
    | nil => simpa using hxl
    | cons y t =>
      have hy : y ≠ [] := hner y (by simp)
      have hfne : (y :: t).flatten ≠ [] := fun hf =>
        hy (List.flatten_eq_nil_iff.mp hf y (by simp))
      rw [List.flatten_cons, List.getLast?_append]
      have hih := ih hner hhr
      cases hX : (y :: t).flatten.getLast? with
      | none => exact absurd (List.getLast?_eq_none_iff.mp hX) hfne
      | some a =>
        rw [hX] at hih
        simpa [hX] using hih

theorem seg_line_mem (ls : List String) (q : String × List String)
    (hq : q ∈ (segmentize ls).2) (l : String) (hl : l ∈ segLines q) : l ∈ ls := by
  rw [← segmentize_flatten ls]
  refine List.mem_append.mpr (Or.inr ?_)
  exact List.mem_flatten.mpr ⟨segLines q, List.mem_map.mpr ⟨q, hq, rfl⟩, hl⟩

theorem nodup_keys_filter (d : List (String × String)) (q : String × String → Bool)
    (h : (d.map Prod.fst).Nodup) : ((d.filter q).map Prod.fst).Nodup :=
  List.Nodup.sublist (List.Sublist.map Prod.fst (List.filter_sublist d)) h

theorem kept_as_segs (kept : List (String × String)) (segs : List (String × List String))
    (h : ∀ p ∈ kept, ∃ q ∈ segs, entryOf q = p) :
    ∃ segs2 : List (String × List String),
      kept = segs2.map entryOf ∧ ∀ q ∈ segs2, q ∈ segs := by
  induction kept with
  | nil => exact ⟨[], rfl, by simp⟩
  | cons p t ih =>
    obtain ⟨q, hq, hqe⟩ := h p (by simp)
    obtain ⟨s2, hs2, hmem⟩ := ih fun r hr => h r (by simp [hr])
    refine ⟨q :: s2, ?_, ?_⟩
    · rw [List.map_cons, hqe, ← hs2]
    · intro r hr
      rcases List.mem_cons.mp hr with rfl | hr2
      · exact hq
      · exact hmem r hr2

theorem c6_idem_core (dfs : List String) (D : String)
    (hwf : ∀ p ∈ (segmentize (pySplitlines D)).2, (extractName p.1).isSome)
    (hlast : ∀ p ∈ (segmentize (pySplitlines D)).2, (segLines p).getLast? ≠ some "") :
    filterPairs dfs (split_diff_by_file
        (joinNL ((filterPairs dfs (split_diff_by_file D)).1.map Prod.snd))) =
      ((filterPairs dfs (split_diff_by_file D)).1, false) := by
  set segs := (segmentize (pySplitlines D)).2 with hsegs
  set d1 := split_diff_by_file D with hd1
  set kept := (filterPairs dfs d1).1 with hkept
  have hd1e : d1 = (segs.map entryOf).foldl insertNE [] := by
    rw [hd1, split_diff_by_file, split_lines_entries _ hwf]
  have hd1nodup : (d1.map Prod.fst).Nodup := by
    rw [hd1e]
    exact nodup_keys_foldl_insertNE _ _ (by simp)
  have hd1mem : ∀ p ∈ d1, (∃ q ∈ segs, entryOf q = p) ∧ p.1 ≠ "" := by
    intro p hp
    rw [hd1e] at hp
    rcases mem_foldl_insertNE_ne _ _ p hp with h | h
    · simp at h
    · exact ⟨List.mem_map.mp h.1, h.2⟩
  have hkeptfilter : kept = d1.filter fun p => decide (p.1 ∉ dfs) := by
    rw [hkept, filterPairs_eq]
  have hkeptmem : ∀ p ∈ kept, p ∈ d1 ∧ p.1 ∉ dfs := by
    intro p hp
    rw [hkeptfilter] at hp
    have h2 := List.mem_filter.mp hp
    exact ⟨h2.1, of_decide_eq_true h2.2⟩
  have hkeptnodup : (kept.map Prod.fst).Nodup := by
    rw [hkeptfilter]
    exact nodup_keys_filter d1 _ hd1nodup
  obtain ⟨segs2, hs2eq, hs2mem⟩ := kept_as_segs kept segs
    (fun p hp => (hd1mem p (hkeptmem p hp).1).1)
  have hs2heads : ∀ q ∈ segs2, isHeader q.1 = true ∧ ∀ l ∈ q.2, isHeader l = false :=
    fun q hq => segmentize_heads (pySplitlines D) q (hs2mem q hq)
  have hs2wf : ∀ q ∈ segs2, (extractName q.1).isSome := fun q hq => hwf q (hs2mem q hq)
  have hs2nl : ∀ l ∈ (segs2.map segLines).flatten, '\n' ∉ l.data := by
    intro l hl
    rcases List.mem_flatten.mp hl with ⟨x, hx, hlx⟩
    rcases List.mem_map.mp hx with ⟨q, hq, rfl⟩
    exact pySplitlines_no_nl D l (seg_line_mem (pySplitlines D) q (hs2mem q hq) l hlx)
  have hs2last : (segs2.map segLines).flatten.getLast? ≠ some "" := by
    apply flatten_getLast_ne_empty
    · intro x hx
      rcases List.mem_map.mp hx with ⟨q, hq, rfl⟩
      simp [segLines]
    · intro x hx
      rcases List.mem_map.mp hx with ⟨q, hq, rfl⟩
      exact hlast q (hs2mem q hq)
  have hvals : kept.map Prod.snd = (segs2.map segLines).map joinNL := by
    rw [hs2eq, List.map_map, List.map_map]
    rfl
  have hjoin : joinNL (kept.map Prod.snd) = joinNL (segs2.map segLines).flatten := by
    rw [hvals, joinNL_map_joinNL]
    intro x hx
    rcases List.mem_map.mp hx with ⟨q, hq, rfl⟩
    simp [segLines]
  have hsl : pySplitlines (joinNL (kept.map Prod.snd)) = (segs2.map segLines).flatten := by
    rw [hjoin, pySplitlines_joinNL _ hs2nl hs2last]
  have hseg2 : segmentize ((segs2.map segLines).flatten) = ([], segs2) :=
    segmentize_of_flatten segs2 hs2heads
  have hsplit2 : split_diff_by_file (joinNL (kept.map Prod.snd)) = kept := by
    rw [split_diff_by_file, hsl, split_lines_entries _ ?wf2]
    · rw [hseg2]
      rw [foldl_insertNE_eq_append _ _ ?nd ?ne ?dj, List.nil_append, ← hs2eq]
      case nd =>
        rw [← hs2eq]
        exact hkeptnodup
      case ne =>
        intro p hp
        rw [← hs2eq] at hp
        exact (hd1mem p (hkeptmem p hp).1).2
      case dj => simp
    case wf2 =>
      rw [hseg2]
      exact hs2wf
  rw [hsplit2, filterPairs_of_none_in dfs kept fun p hp => (hkeptmem p hp).2]

/-- C6 counterexample: the diff `"diff --git a/f b/f\ndiff --git\nx"`
filters (with the default noise set) to `"diff --git\nx"` — the malformed
header was absorbed into segment `f`, overwriting it — and filtering that
text again yields `("", false)`, not the same text: `preprocess_diff` is
not idempotent on its output in general. -/
theorem c6_counterexample_not_idempotent :
    preprocess_diff
        (preprocess_diff "diff --git a/f b/f\ndiff --git\nx" none).1 none ≠
      ((preprocess_diff "diff --git a/f b/f\ndiff --git\nx" none).1, false) := by
  decide

/-- C6 amended: `preprocess_diff` is idempotent with respect to a fixed
noise set provided every line starting with `diff --git` splits into at
least 3 space-separated tokens (equivalently, every segment header is
well-formed) and no per-file segment ends with an empty line: filtering the
filtered text again with the same noise set returns it unchanged with the
omission flag `false`. -/
theorem c6_idempotent_under_wellformedness (D : String) (S : Option (List String))
    (hwf : ∀ p ∈ (segmentize (pySplitlines D)).2, (extractName p.1).isSome)
    (hlast : ∀ p ∈ (segmentize (pySplitlines D)).2, (segLines p).getLast? ≠ some "") :
    preprocess_diff (preprocess_diff D S).1 S = ((preprocess_diff D S).1, false) := by
  have hcore := c6_idem_core
    (match S with | none => defaultDistracting | some l => l) D hwf hlast
  simp only [preprocess_diff]
  rw [hcore]

/-- Witness for the amended C6 at a three-file diff containing a noise
file, with the default noise set. -/
theorem c6_witness :
    preprocess_diff
        (preprocess_diff
          "diff --git a/a.py b/a.py\n+1\ndiff --git a/pyproject.toml b/pyproject.toml\n+2\ndiff --git a/b.py b/b.py\n+3"
          none).1 none =
      ((preprocess_diff
          "diff --git a/a.py b/a.py\n+1\ndiff --git a/pyproject.toml b/pyproject.toml\n+2\ndiff --git a/b.py b/b.py\n+3"
          none).1, false) :=
  c6_idempotent_under_wellformedness
    "diff --git a/a.py b/a.py\n+1\ndiff --git a/pyproject.toml b/pyproject.toml\n+2\ndiff --git a/b.py b/b.py\n+3"
    none (by decide) (by decide)
